import Mathlib

/-!
Verification of the second-brain indexing and retrieval pipeline.

This development shallowly embeds the core string-processing and
orchestration logic of the backend (chunker, markdown parser, vault file
map, search-service graph enrichment, index-service rebuild) as Lean
functions over `List Char`, mirroring the Python sources, and proves
properties of them.
-/

namespace SecondBrain

/-- A Python string, modelled as its list of characters. -/
abbrev Str := List Char

/-- Python's ASCII whitespace test (the characters matched by the regex
class for whitespace and stripped by `str.strip`): space, tab, newline,
carriage return, vertical tab, form feed. -/
def pySpace (c : Char) : Bool :=
  c == ' ' || c == '\t' || c == '\n' || c == '\r' ||
    c == Char.ofNat 11 || c == Char.ofNat 12

/-- Python `str.strip()`: drop whitespace from both ends. -/
def pyStrip (cs : Str) : Str :=
  ((cs.dropWhile pySpace).reverse.dropWhile pySpace).reverse

/-- Lowercase every character (Python `str.lower()` restricted to ASCII). -/
def lowerStr (cs : Str) : Str := cs.map Char.toLower

/-- Split a character list at every occurrence of `sep`
(Python `str.split(sep)` for a one-character separator). -/
def splitOnChar (sep : Char) : Str → List Str
  | [] => [[]]
  | c :: cs =>
    if c = sep then [] :: splitOnChar sep cs
    else
      match splitOnChar sep cs with
      | [] => [[c]]
      | h :: t => (c :: h) :: t

/-- Join pieces with a separator (Python `sep.join(pieces)`). -/
def joinWith (sep : Str) : List Str → Str
  | [] => []
  | [x] => x
  | x :: y :: t => x ++ sep ++ joinWith sep (y :: t)

theorem splitOnChar_ne_nil (sep : Char) (cs : Str) : splitOnChar sep cs ≠ [] := by
  cases cs with
  | nil => simp [splitOnChar]
  | cons c cs =>
    simp only [splitOnChar]
    split
    · simp
    · split <;> simp

theorem joinWith_splitOnChar (sep : Char) (cs : Str) :
    joinWith [sep] (splitOnChar sep cs) = cs := by
  induction cs with
  | nil => rfl
  | cons c cs ih =>
    simp only [splitOnChar]
    split
    · rename_i hc
      obtain ⟨h, t, ht⟩ : ∃ h t, splitOnChar sep cs = h :: t := by
        cases hsp : splitOnChar sep cs with
        | nil => exact absurd hsp (splitOnChar_ne_nil sep cs)
        | cons h t => exact ⟨h, t, rfl⟩
      rw [ht]
      rw [ht] at ih
      simp [joinWith, hc, ← ih]
    · cases hsp : splitOnChar sep cs with
      | nil => exact absurd hsp (splitOnChar_ne_nil sep cs)
      | cons h t =>
        rw [hsp] at ih
        cases t with
        | nil => simpa [joinWith] using ih
        | cons y ys => simpa [joinWith] using congrArg (c :: ·) ih

/-! ## Chunker (`backend/infrastructure/chunker.py`) -/

/-- Model of `CHUNK_SIZE` from `backend/domain/constants.py`. -/
def CHUNK_SIZE : Nat := 512

/-- Model of `CHUNK_OVERLAP` from `backend/domain/constants.py`. -/
def CHUNK_OVERLAP : Nat := 128

/-- Model of `NoteChunk` (the fields produced by `Chunker.chunk`). -/
structure NoteChunk where
  chunkId : Str
  notePath : Str
  content : Str
  chunkIndex : Nat
  headingContext : Option Str
deriving DecidableEq, Repr

/-- Match one line against the heading pattern: one to six leading
hash marks, at least one whitespace character, then at least one further
character.  Returns the heading level and the stripped heading text
(`Chunker._HEADING_RE` applied per line, plus the `.strip()` done at the
use site). -/
def matchHeading (line : Str) : Option (Nat × Str) :=
  let hashes := line.takeWhile (· == '#')
  let rest := line.drop hashes.length
  if 1 ≤ hashes.length ∧ hashes.length ≤ 6 ∧ 2 ≤ rest.length ∧
      pySpace rest.headI then
    some (hashes.length, pyStrip rest)
  else none

/-- The level-indexed table of active headings
(`heading_by_level` in `Chunker._split_by_headings`). -/
abbrev HeadingTable := List (Nat × Str)

/-- Record a heading at level `lvl`: levels below `lvl` survive, level
`lvl` is overwritten, all deeper levels are discarded. -/
def setHeading (t : HeadingTable) (lvl : Nat) (txt : Str) : HeadingTable :=
  t.filter (fun p => p.1 < lvl) ++ [(lvl, txt)]

/-- Insert into a level-sorted table (helper for sorting by level). -/
def insertLevel (p : Nat × Str) : HeadingTable → HeadingTable
  | [] => [p]
  | q :: t => if p.1 ≤ q.1 then p :: q :: t else q :: insertLevel p t

/-- Sort a heading table by ascending level
(the `sorted(heading_by_level)` in `Chunker._build_context`). -/
def sortByLevel : HeadingTable → HeadingTable
  | [] => []
  | p :: t => insertLevel p (sortByLevel t)

/-- Model of `Chunker._build_context`: the ` > `-joined heading texts in ascending
level order, or no context when no heading is active. -/
def buildContext (t : HeadingTable) : Option Str :=
  if t.isEmpty then none
  else some (joinWith (" > ".data) ((sortByLevel t).map Prod.snd))

/-- Emit the pending section if it has any lines
(the flush steps of `Chunker._split_by_headings`). -/
def flushSection (cur : List Str) (tbl : HeadingTable)
    (acc : List (Option Str × Str)) : List (Option Str × Str) :=
  if cur.isEmpty then acc else acc ++ [(buildContext tbl, joinWith ['\n'] cur)]

/-- The line loop of `Chunker._split_by_headings`. -/
def splitLoop : List Str → HeadingTable → List Str →
    List (Option Str × Str) → List (Option Str × Str)
  | [], tbl, cur, acc => flushSection cur tbl acc
  | line :: rest, tbl, cur, acc =>
    match matchHeading line with
    | some (lvl, txt) =>
      splitLoop rest (setHeading tbl lvl txt) [] (flushSection cur tbl acc)
    | none => splitLoop rest tbl (cur ++ [line]) acc

/-- Model of `Chunker._split_by_headings`: split content into
(heading context, section text) pairs. -/
def splitByHeadings (content : Str) : List (Option Str × Str) :=
  splitLoop (splitOnChar '\n' content) [] [] []

/-- Model of `Chunker._split_fixed_size`: fixed windows of `CHUNK_SIZE` characters
advancing by `CHUNK_SIZE - CHUNK_OVERLAP`, each window stripped, empty
windows dropped. -/
def splitFixedSize : Str → List Str
  | [] => []
  | c :: rest =>
    let piece := pyStrip ((c :: rest).take CHUNK_SIZE)
    (if piece.isEmpty then [] else [piece]) ++
      splitFixedSize ((c :: rest).drop (CHUNK_SIZE - CHUNK_OVERLAP))
termination_by cs => cs.length
decreasing_by
  simp only [CHUNK_SIZE, CHUNK_OVERLAP, List.length_drop, List.length_cons]
  omega

/-- Build one chunk the way `Chunker.chunk` does, where `idx` is the
running length of the chunk list so far. -/
def mkChunk (path : Str) (idx : Nat) (content : Str) (ctx : Option Str) :
    NoteChunk :=
  { chunkId := path ++ "#chunk".data ++ (Nat.repr idx).data
    notePath := path
    content := content
    chunkIndex := idx
    headingContext := ctx }

/-- Append the sub-chunks of an oversized section
(the inner loop of `Chunker.chunk`). -/
def appendChunks (path : Str) (ctx : Option Str) (subs : List Str)
    (acc : List NoteChunk) : List NoteChunk :=
  subs.foldl (fun a sub => a ++ [mkChunk path a.length sub ctx]) acc

/-- Process one section (the body of the `for` loop of `Chunker.chunk`). -/
def chunkSection (path : Str) (acc : List NoteChunk)
    (sec : Option Str × Str) : List NoteChunk :=
  let t := pyStrip sec.2
  if t.isEmpty then acc
  else if t.length ≤ CHUNK_SIZE then acc ++ [mkChunk path acc.length t sec.1]
  else appendChunks path sec.1 (splitFixedSize t) acc

/-- Model of `Chunker.chunk`: split content into chunks for indexing. -/
def chunkNote (path : Str) (content : Str) : List NoteChunk :=
  (splitByHeadings content).foldl (chunkSection path) []

/-- Invariant of the chunk list built by `chunkNote`: indices are the
positions `0..n-1` and ids are derived from path and index. -/
def ChunksOk (path : Str) (acc : List NoteChunk) : Prop :=
  acc.map NoteChunk.chunkIndex = List.range acc.length ∧
    ∀ c ∈ acc, c.chunkId = path ++ "#chunk".data ++ (Nat.repr c.chunkIndex).data

theorem chunksOk_nil (path : Str) : ChunksOk path [] := by
  constructor
  · rfl
  · intro c hc
    simp at hc

theorem chunksOk_append (path : Str) (acc : List NoteChunk) (s : Str)
    (ctx : Option Str) (h : ChunksOk path acc) :
    ChunksOk path (acc ++ [mkChunk path acc.length s ctx]) := by
  obtain ⟨hidx, hid⟩ := h
  constructor
  · simp [List.range_succ, hidx, mkChunk]
  · intro c hc
    rcases List.mem_append.1 hc with hc | hc
    · exact hid c hc
    · simp at hc
      subst hc
      rfl

theorem chunksOk_appendChunks (path : Str) (ctx : Option Str)
    (subs : List Str) :
    ∀ acc : List NoteChunk, ChunksOk path acc →
      ChunksOk path (appendChunks path ctx subs acc) := by
  induction subs with
  | nil => intro acc h; exact h
  | cons s rest ih =>
    intro acc h
    exact ih _ (chunksOk_append path acc s ctx h)

theorem chunksOk_chunkSection (path : Str) (acc : List NoteChunk)
    (sec : Option Str × Str) (h : ChunksOk path acc) :
    ChunksOk path (chunkSection path acc sec) := by
  unfold chunkSection
  dsimp only
  split
  · exact h
  · split
    · exact chunksOk_append path acc _ _ h
    · exact chunksOk_appendChunks path _ _ acc h

theorem chunksOk_foldl (path : Str) (secs : List (Option Str × Str)) :
    ∀ acc : List NoteChunk, ChunksOk path acc →
      ChunksOk path (secs.foldl (chunkSection path) acc) := by
  induction secs with
  | nil => intro acc h; exact h
  | cons s rest ih =>
    intro acc h
    exact ih _ (chunksOk_chunkSection path acc s h)

theorem pyStrip_length_le (cs : Str) : (pyStrip cs).length ≤ cs.length := by
  unfold pyStrip
  calc ((cs.dropWhile pySpace).reverse.dropWhile pySpace).reverse.length
      = ((cs.dropWhile pySpace).reverse.dropWhile pySpace).length := by
        rw [List.length_reverse]
    _ ≤ (cs.dropWhile pySpace).reverse.length :=
        (List.dropWhile_sublist pySpace).length_le
    _ = (cs.dropWhile pySpace).length := by rw [List.length_reverse]
    _ ≤ cs.length := (List.dropWhile_sublist pySpace).length_le

theorem splitLoop_no_heading (lines : List Str) :
    ∀ (tbl : HeadingTable) (cur : List Str) (acc : List (Option Str × Str)),
      (∀ l ∈ lines, matchHeading l = none) →
      splitLoop lines tbl cur acc = flushSection (cur ++ lines) tbl acc := by
  induction lines with
  | nil => intro tbl cur acc _; simp [splitLoop]
  | cons l rest ih =>
    intro tbl cur acc h
    have hl : matchHeading l = none := h l (by simp)
    have hrest : ∀ x ∈ rest, matchHeading x = none := fun x hx => h x (by simp [hx])
    simp only [splitLoop, hl]
    rw [ih tbl (cur ++ [l]) acc hrest, List.append_assoc]
    rfl

theorem insertLevel_mem (p a : Nat × Str) (l : HeadingTable) :
    a ∈ insertLevel p l ↔ a = p ∨ a ∈ l := by
  induction l with
  | nil => simp [insertLevel]
  | cons q t ih =>
    simp only [insertLevel]
    split
    · simp [or_comm, or_left_comm, or_assoc]
    · simp only [List.mem_cons, ih]
      tauto

theorem insertLevel_pairwise (p : Nat × Str) (l : HeadingTable)
    (h : List.Pairwise (fun a b => a.1 ≤ b.1) l) :
    List.Pairwise (fun a b => a.1 ≤ b.1) (insertLevel p l) := by
  induction l with
  | nil => simp [insertLevel]
  | cons q t ih =>
    simp only [insertLevel]
    rcases h with - | ⟨hq, ht⟩
    split
    · rename_i hle
      refine List.Pairwise.cons ?_ (List.Pairwise.cons hq ht)
      intro b hb
      rcases List.mem_cons.1 hb with rfl | hb
      · exact hle
      · exact Nat.le_trans hle (hq b hb)
    · rename_i hgt
      refine List.Pairwise.cons ?_ (ih ht)
      intro b hb
      rcases (insertLevel_mem p b t).1 hb with rfl | hb
      · omega
      · exact hq b hb

theorem sortByLevel_pairwise (t : HeadingTable) :
    List.Pairwise (fun a b => a.1 ≤ b.1) (sortByLevel t) := by
  induction t with
  | nil => simp [sortByLevel]
  | cons p rest ih => exact insertLevel_pairwise p _ ih

/-- C8: for every document, the chunks returned by `chunkNote` carry
chunk indices exactly `0..n-1` in emission order across the whole
document, and every chunk's id is the note path followed by `#chunk` and
its index. -/
theorem chunk_ids_sequential (path content : Str) :
    (chunkNote path content).map NoteChunk.chunkIndex =
      List.range (chunkNote path content).length ∧
    ∀ c ∈ chunkNote path content,
      c.chunkId = path ++ "#chunk".data ++ (Nat.repr c.chunkIndex).data :=
  chunksOk_foldl path _ [] (chunksOk_nil path)

/-- Witness for C8 at a concrete two-section document. -/
theorem chunk_ids_sequential_witness :
    (chunkNote "p".data "a\n# H\nb".data).map NoteChunk.chunkIndex =
      List.range (chunkNote "p".data "a\n# H\nb".data).length ∧
    mkChunk "p".data 1 "b".data (some "H".data) ∈
      chunkNote "p".data "a\n# H\nb".data ∧
    (mkChunk "p".data 1 "b".data (some "H".data)).chunkId =
      "p".data ++ "#chunk".data ++ (Nat.repr 1).data :=
  ⟨(chunk_ids_sequential "p".data "a\n# H\nb".data).1, by decide,
    (chunk_ids_sequential "p".data "a\n# H\nb".data).2 _ (by decide)⟩

/-- C1 counterexample: the body `"a\n# H\nb"` is shorter than the chunk
size, yet `chunkNote` returns two chunks, not one chunk equal to the
trimmed input. -/
theorem chunk_small_body_counterexample :
    ("a\n# H\nb".data).length < CHUNK_SIZE ∧
    (chunkNote "p".data "a\n# H\nb".data).map NoteChunk.content ≠
      [pyStrip "a\n# H\nb".data] := by
  constructor
  · decide
  · decide

/-- C1 (amended): for every note body under the chunk size that contains
no heading line and is not whitespace-only, `chunkNote` returns exactly
one chunk whose content is the trimmed body. -/
theorem chunk_small_body (path content : Str)
    (hlen : content.length < CHUNK_SIZE)
    (hnohead : ∀ l ∈ splitOnChar '\n' content, matchHeading l = none)
    (hne : pyStrip content ≠ []) :
    (chunkNote path content).map NoteChunk.content = [pyStrip content] := by
  unfold chunkNote splitByHeadings
  rw [splitLoop_no_heading _ [] [] [] hnohead]
  simp only [List.nil_append]
  obtain ⟨l0, ls, hsplit⟩ : ∃ l0 ls, splitOnChar '\n' content = l0 :: ls := by
    cases hsp : splitOnChar '\n' content with
    | nil => exact absurd hsp (splitOnChar_ne_nil '\n' content)
    | cons h t => exact ⟨h, t, rfl⟩
  have hjoin : joinWith ['\n'] (splitOnChar '\n' content) = content :=
    joinWith_splitOnChar '\n' content
  rw [hsplit] at hjoin ⊢
  simp only [flushSection, List.isEmpty_cons, Bool.false_eq_true, if_false,
    List.nil_append, hjoin]
  simp only [List.foldl_cons, List.foldl_nil, chunkSection, buildContext]
  have hstrip : (pyStrip content).isEmpty = false := by
    cases hps : pyStrip content with
    | nil => exact absurd hps hne
    | cons a t => rfl
  have hle : (pyStrip content).length ≤ CHUNK_SIZE :=
    Nat.le_of_lt (Nat.lt_of_le_of_lt (pyStrip_length_le content) hlen)
  simp [hstrip, hle, mkChunk]

/-- Witness for C1's amended theorem at the concrete body `"hi"`. -/
theorem chunk_small_body_witness :
    (chunkNote "p".data "hi".data).map NoteChunk.content =
      [pyStrip "hi".data] :=
  chunk_small_body "p".data "hi".data (by decide) (by decide) (by decide)

/-- C2: setting a heading at level `L` keeps exactly the recorded levels
below `L` and the new entry at `L` (everything deeper is discarded); the
per-section context joins active headings in ascending level order; and
on the document `t / H2 A / x / H3 A1 / y / H2 B / z` the text following
`B` carries context exactly `"B"` while text preceding any heading has no
context. -/
theorem heading_context_table (tbl : HeadingTable) (lvl : Nat) (txt : Str) :
    ((lvl, txt) ∈ setHeading tbl lvl txt ∧
      (∀ p ∈ setHeading tbl lvl txt, p.1 ≤ lvl) ∧
      (∀ p ∈ tbl, p.1 < lvl → p ∈ setHeading tbl lvl txt) ∧
      (∀ p ∈ setHeading tbl lvl txt, p.1 < lvl → p ∈ tbl)) ∧
    (∀ t : HeadingTable, List.Pairwise (fun a b => a.1 ≤ b.1) (sortByLevel t)) ∧
    splitByHeadings ("t\n## A\nx\n### A1\ny\n## B\nz".data) =
      [(none, "t".data), (some "A".data, "x".data),
       (some "A > A1".data, "y".data), (some "B".data, "z".data)] := by
  refine ⟨⟨?_, ?_, ?_, ?_⟩, sortByLevel_pairwise, by decide⟩
  · simp [setHeading]
  · intro p hp
    rcases List.mem_append.1 hp with hp | hp
    · exact Nat.le_of_lt (by simpa using (List.mem_filter.1 hp).2)
    · simp at hp
      subst hp
      exact Nat.le_refl lvl
  · intro p hp hlt
    exact List.mem_append.2 (Or.inl (List.mem_filter.2 ⟨hp, by simpa using hlt⟩))
  · intro p hp hlt
    rcases List.mem_append.1 hp with hp | hp
    · exact (List.mem_filter.1 hp).1
    · simp at hp
      subst hp
      omega

/-- Witness for C2 at a concrete heading table: `H2 "B"` over the table
`[(2, "A"), (3, "A1")]` keeps only the new level-2 entry. -/
theorem heading_context_table_witness :
    (2, "B".data) ∈ setHeading [(2, "A".data), (3, "A1".data)] 2 "B".data ∧
    (3, "A1".data) ∉ setHeading [(2, "A".data), (3, "A1".data)] 2 "B".data :=
  ⟨(heading_context_table [(2, "A".data), (3, "A1".data)] 2 "B".data).1.1,
    fun hmem => by
      have := (heading_context_table [(2, "A".data), (3, "A1".data)] 2
        "B".data).1.2.1 _ hmem
      omega⟩

/-! ## Vault file map (`backend/infrastructure/vault_file_map.py`) -/

/-- Model of `os.path.basename` for forward-slash paths: the part after the last
separator. -/
def afterLastSlash (p : Str) : Str := (p.reverse.takeWhile (· ≠ '/')).reverse

/-- The root part of `os.path.splitext` applied to a basename: everything
before the last dot, unless every character before that dot is itself a
dot (then the whole name is the root, as for dotfiles like `.md`). -/
def splitextRoot (b : Str) : Str :=
  let revTail := b.reverse.takeWhile (· ≠ '.')
  if revTail.length = b.length then b
  else
    let root := (b.reverse.drop (revTail.length + 1)).reverse
    if root.any (· ≠ '.') then root else b

/-- The map key used throughout `VaultFileMap`: the lowercase basename
stem of a path. -/
def fileKey (p : Str) : Str := lowerStr (splitextRoot (afterLastSlash p))

/-- The `VaultFileMap._map` dictionary: association list from lowercase
stem to relative path. -/
abbrev PathTable := List (Str × Str)

/-- Dictionary lookup (`self._map.get(key)`). -/
def lookupTable (m : PathTable) (k : Str) : Option Str :=
  (m.find? (fun e => e.1 == k)).map Prod.snd

/-- Dictionary key removal (`self._map.pop(key, None)`). -/
def eraseKey (m : PathTable) (k : Str) : PathTable :=
  m.filter (fun e => !(e.1 == k))

/-- Dictionary assignment (`self._map[key] = value`). -/
def insertKey (m : PathTable) (k v : Str) : PathTable :=
  eraseKey m k ++ [(k, v)]

/-- Model of `VaultFileMap.resolve`: strip a `#heading` anchor, strip whitespace,
lowercase, then look up. -/
def resolveLink (m : PathTable) (t : Str) : Option Str :=
  lookupTable m (lowerStr (pyStrip (t.takeWhile (· ≠ '#'))))

/-- Model of `VaultFileMap.remove_file`: keyed purely by the lowercase basename
stem of the given path. -/
def removeFile (m : PathTable) (p : Str) : PathTable := eraseKey m (fileKey p)

/-- Model of `VaultFileMap.update_file`: pop the old path's stem when given, then
assign the new path under its stem. -/
def updateFile (m : PathTable) (oldPath : Option Str) (newPath : Str) :
    PathTable :=
  insertKey
    (match oldPath with
      | some o => eraseKey m (fileKey o)
      | none => m)
    (fileKey newPath) newPath

/-- Model of `VaultFileMap.has_file`. -/
def hasFile (m : PathTable) (p : Str) : Bool :=
  (lookupTable m (fileKey p)).isSome

theorem char_toNat_ofNat (n : Nat) (h : n.isValidChar) :
    (Char.ofNat n).toNat = n := by
  rw [Char.ofNat, dif_pos h]
  rfl

theorem toLower_of_upper {c : Char} (h1 : 65 ≤ c.toNat) (h2 : c.toNat ≤ 90) :
    (Char.toLower c).toNat = c.toNat + 32 := by
  unfold Char.toLower
  rw [if_pos ⟨h1, h2⟩]
  exact char_toNat_ofNat _ (Or.inl (by omega))

theorem toLower_of_not_upper {c : Char}
    (h : ¬(65 ≤ c.toNat ∧ c.toNat ≤ 90)) : Char.toLower c = c := by
  unfold Char.toLower
  rw [if_neg]
  simpa [ge_iff_le] using h

theorem char_toNat_inj {a b : Char} (h : a.toNat = b.toNat) : a = b := by
  have ha := Char.ofNat_toNat a
  rw [h, Char.ofNat_toNat] at ha
  exact ha.symm

theorem toLower_toLower (c : Char) :
    Char.toLower (Char.toLower c) = Char.toLower c := by
  by_cases h : 65 ≤ c.toNat ∧ c.toNat ≤ 90
  · have h1 := toLower_of_upper h.1 h.2
    apply toLower_of_not_upper
    omega
  · rw [toLower_of_not_upper h]
    exact toLower_of_not_upper h

theorem pySpace_toNat_le {c : Char} (h : pySpace c = true) : c.toNat ≤ 32 := by
  simp only [pySpace, Bool.or_eq_true, beq_iff_eq] at h
  rcases h with ((((h | h) | h) | h) | h) | h <;> subst h <;> decide

theorem pySpace_toLower (c : Char) :
    pySpace (Char.toLower c) = pySpace c := by
  by_cases h : 65 ≤ c.toNat ∧ c.toNat ≤ 90
  · have h1 := toLower_of_upper h.1 h.2
    have hl : pySpace (Char.toLower c) = false := by
      cases hps : pySpace (Char.toLower c) with
      | false => rfl
      | true => have := pySpace_toNat_le hps; omega
    have hc : pySpace c = false := by
      cases hps : pySpace c with
      | false => rfl
      | true => have := pySpace_toNat_le hps; omega
    rw [hl, hc]
  · rw [toLower_of_not_upper h]

theorem toLower_eq_hash {c : Char} : Char.toLower c = '#' ↔ c = '#' := by
  constructor
  · intro h
    by_cases hu : 65 ≤ c.toNat ∧ c.toNat ≤ 90
    · have h1 := toLower_of_upper hu.1 hu.2
      have : ('#' : Char).toNat = 35 := by decide
      rw [h] at h1
      omega
    · rwa [toLower_of_not_upper hu] at h
  · intro h
    subst h
    decide

theorem takeWhile_hash_lower (t : Str) :
    (lowerStr t).takeWhile (· ≠ '#') =
      lowerStr (t.takeWhile (· ≠ '#')) := by
  have hfun : ((fun x => decide (x ≠ '#')) ∘ Char.toLower) =
      (fun x : Char => decide (x ≠ '#')) := by
    funext c
    simp only [Function.comp_apply, decide_eq_decide, ne_eq, not_iff_not]
    exact toLower_eq_hash
  unfold lowerStr
  rw [List.takeWhile_map, hfun]

theorem pyStrip_lower (u : Str) :
    pyStrip (lowerStr u) = lowerStr (pyStrip u) := by
  have hps : pySpace ∘ Char.toLower = pySpace := funext pySpace_toLower
  unfold pyStrip lowerStr
  rw [List.dropWhile_map, hps, ← List.map_reverse, List.dropWhile_map, hps,
    ← List.map_reverse]

theorem lowerStr_idem (v : Str) : lowerStr (lowerStr v) = lowerStr v := by
  unfold lowerStr
  rw [List.map_map]
  exact List.map_congr_left (fun c _ => toLower_toLower c)

theorem takeWhile_hash_append (t r : Str) :
    (t ++ '#' :: r).takeWhile (· ≠ '#') = t.takeWhile (· ≠ '#') := by
  induction t with
  | nil => simp
  | cons c cs ih =>
    by_cases hc : c = '#'
    · subst hc
      simp
    · have hcd : decide (c ≠ '#') = true := by simp [hc]
      rw [List.cons_append, List.takeWhile_cons, List.takeWhile_cons,
        if_pos hcd, if_pos hcd, ih]

/-- C5: `resolveLink` ignores any `#heading` suffix of the link text and
the case of the link text: stripping an anchor or lowercasing the text
never changes the lookup, and in particular `resolve("Note#Section")`
equals `resolve("note")` on every table. -/
theorem resolve_case_and_anchor_insensitive :
    (∀ (m : PathTable) (t r : Str),
      resolveLink m (t ++ '#' :: r) = resolveLink m t) ∧
    (∀ (m : PathTable) (t : Str),
      resolveLink m (lowerStr t) = resolveLink m t) ∧
    (∀ m : PathTable,
      resolveLink m ("Note#Section".data) = resolveLink m ("note".data)) := by
  refine ⟨?_, ?_, ?_⟩
  · intro m t r
    unfold resolveLink
    rw [takeWhile_hash_append]
  · intro m t
    unfold resolveLink
    rw [takeWhile_hash_lower, pyStrip_lower, lowerStr_idem]
  · intro m
    have hk : lowerStr (pyStrip (("Note#Section".data).takeWhile (· ≠ '#'))) =
        lowerStr (pyStrip (("note".data).takeWhile (· ≠ '#'))) := by decide
    unfold resolveLink
    rw [hk]

/-- Witness for C5 on a concrete table. -/
theorem resolve_case_and_anchor_insensitive_witness :
    resolveLink [("note".data, "dir/Note.md".data)] ("Note#Section".data) =
      resolveLink [("note".data, "dir/Note.md".data)] ("note".data) :=
  resolve_case_and_anchor_insensitive.2.2 [("note".data, "dir/Note.md".data)]

theorem lookup_eraseKey (m : PathTable) (k : Str) :
    lookupTable (eraseKey m k) k = none := by
  induction m with
  | nil => rfl
  | cons e t ih =>
    unfold eraseKey at *
    rw [List.filter_cons]
    split
    · rename_i hkeep
      unfold lookupTable at *
      rw [List.find?_cons_of_neg]
      · exact ih
      · simpa using hkeep
    · exact ih

/-- C10: `removeFile` and `updateFile` key their removal purely by the
lowercase basename stem: two paths with the same stem are
interchangeable, removal always clears the stem's mapping, and removing
path `B` deletes the entry that was recorded for a different path `A`
with the same stem. -/
theorem remove_keyed_by_stem :
    (∀ (m : PathTable) (a b : Str), fileKey a = fileKey b →
      removeFile m a = removeFile m b) ∧
    (∀ (m : PathTable) (p : Str),
      lookupTable (removeFile m p) (fileKey p) = none) ∧
    (∀ (m : PathTable) (a b np : Str), fileKey a = fileKey b →
      updateFile m (some a) np = updateFile m (some b) np) ∧
    removeFile [("note".data, "dir1/Note.md".data)] ("dir2/NOTE.txt".data) =
      [] := by
  refine ⟨?_, ?_, ?_, by decide⟩
  · intro m a b h
    unfold removeFile
    rw [h]
  · intro m p
    exact lookup_eraseKey m (fileKey p)
  · intro m a b np h
    show insertKey (eraseKey m (fileKey a)) (fileKey np) np =
      insertKey (eraseKey m (fileKey b)) (fileKey np) np
    rw [h]

/-- Witness for C10: removing `dir2/NOTE.txt` deletes the entry recorded
for `dir1/Note.md`, and afterwards the shared stem resolves to nothing. -/
theorem remove_keyed_by_stem_witness :
    removeFile [("note".data, "dir1/Note.md".data)] ("dir2/NOTE.txt".data) =
      [] ∧
    lookupTable
      (removeFile [("note".data, "dir1/Note.md".data)] ("dir2/NOTE.txt".data))
      (fileKey ("dir2/NOTE.txt".data)) = none :=
  ⟨remove_keyed_by_stem.2.2.2,
    remove_keyed_by_stem.2.1 [("note".data, "dir1/Note.md".data)]
      ("dir2/NOTE.txt".data)⟩

/-! ## Markdown parser (`backend/infrastructure/markdown_parser.py`) -/

/-- The backtick character delimiting code spans. -/
def btChar : Char := Char.ofNat 96

/-- Find the first run of three consecutive backticks; return the text
after it. -/
def findTriple : Str → Option Str
  | b1 :: b2 :: b3 :: rest =>
    if b1 = btChar ∧ b2 = btChar ∧ b3 = btChar then some rest
    else findTriple (b2 :: b3 :: rest)
  | _ => none

theorem findTriple_length : ∀ (cs r : Str), findTriple cs = some r →
    r.length + 3 ≤ cs.length
  | b1 :: b2 :: b3 :: rest, r, h => by
    unfold findTriple at h
    split at h
    · cases h
      simp
    · have := findTriple_length (b2 :: b3 :: rest) r h
      simp only [List.length_cons] at this ⊢
      omega
  | [], _, h => by simp [findTriple] at h
  | [b1], _, h => by simp [findTriple] at h
  | [b1, b2], _, h => by simp [findTriple] at h

/-- Worker for `removeFenced`; the fuel argument only bounds the
recursion depth and is set to the input length, which one character of
progress per step never exhausts. -/
def removeFencedAux : Nat → Str → Str
  | _, [] => []
  | 0, cs => cs
  | fuel + 1, b1 :: b2 :: b3 :: rest =>
    if b1 = btChar ∧ b2 = btChar ∧ b3 = btChar then
      match findTriple rest with
      | some rest' => removeFencedAux fuel rest'
      | none => b1 :: b2 :: b3 :: rest
    else b1 :: removeFencedAux fuel (b2 :: b3 :: rest)
  | _ + 1, cs => cs

/-- Apply `_CODE_BLOCK_RE.sub("", ·)`: delete every non-greedy
triple-backtick fenced span, scanning left to right. -/
def removeFenced (cs : Str) : Str := removeFencedAux cs.length cs

/-- Worker for `removeInline` (fuel as in `removeFencedAux`). -/
def removeInlineAux : Nat → Str → Str
  | _, [] => []
  | 0, cs => cs
  | fuel + 1, c :: rest =>
    if c = btChar then
      match rest.dropWhile (fun x => x ≠ btChar) with
      | [] => c :: rest
      | _ :: r2 =>
        if (rest.takeWhile (fun x => x ≠ btChar)).isEmpty then
          c :: removeInlineAux fuel rest
        else removeInlineAux fuel r2
    else c :: removeInlineAux fuel rest

/-- Apply `_INLINE_CODE_RE.sub("", ·)`: delete every
backtick-delimited inline code span with non-empty contents. -/
def removeInline (cs : Str) : Str := removeInlineAux cs.length cs

/-- Worker for `scanWikilinks` (fuel as in `removeFencedAux`). -/
def scanWikilinksAux : Nat → Str → List Str
  | _, [] => []
  | 0, _ => []
  | fuel + 1, '[' :: '[' :: rest =>
    match rest.dropWhile (fun x => x ≠ ']') with
    | ']' :: ']' :: r2 =>
      let mid := rest.takeWhile (fun x => x ≠ ']')
      if mid.isEmpty then scanWikilinksAux fuel ('[' :: rest)
      else mid :: scanWikilinksAux fuel r2
    | _ => scanWikilinksAux fuel ('[' :: rest)
  | fuel + 1, _ :: rest => scanWikilinksAux fuel rest

/-- Scan for wikilink occurrences (`_WIKILINK_RE.finditer`): a double
open bracket, one or more non-close-bracket characters, then a double
close bracket; on a failed candidate the scan resumes one character
later. -/
def scanWikilinks (cs : Str) : List Str := scanWikilinksAux cs.length cs

/-- Collapse duplicates, keeping first occurrences (the `seen` set in
`MarkdownParser._extract_wikilinks`). -/
def dedupeFirst (seen : List Str) : List Str → List Str
  | [] => []
  | x :: xs =>
    if x ∈ seen then dedupeFirst seen xs
    else x :: dedupeFirst (x :: seen) xs

/-- Model of `WikiLink` (the fields produced by the parser). -/
structure WikiLink where
  sourcePath : Str
  linkText : Str
  resolvedTargetPath : Option Str
deriving DecidableEq, Repr

/-- Model of `MarkdownParser._extract_wikilinks`: remove code spans, scan for
wikilinks, take the portion before the first `|` (stripped) as the link
text, collapse duplicates keeping first occurrences, and resolve each
text through the vault file map (unresolved texts get no target). -/
def extractWikilinks (m : PathTable) (src body : Str) : List WikiLink :=
  let clean := removeInline (removeFenced body)
  let texts := dedupeFirst []
    ((scanWikilinks clean).map
      (fun raw => pyStrip (raw.takeWhile (fun x => x ≠ '|'))))
  texts.map (fun t => ⟨src, t, resolveLink m t⟩)

/-- Offsets just after each newline of a whitespace run: the candidate
group starts that the frontmatter regex `---\s*\n` can produce. -/
def nlStarts (w : Str) : List Nat :=
  ((List.range w.length).filter (fun i => w.getD i ' ' == '\n')).map (· + 1)

/-- Worker for `findClose` (fuel as in `removeFencedAux`). -/
def findCloseAux : Nat → Str → Str → Option (Str × Str)
  | _, _, [] => none
  | 0, _, _ => none
  | fuel + 1, acc, '\n' :: '-' :: '-' :: '-' :: r3 =>
    let w := r3.takeWhile pySpace
    if w.contains '\n' then
      some (acc.reverse,
        r3.drop (w.length -
          (w.reverse.takeWhile (fun c => c ≠ '\n')).length))
    else findCloseAux fuel ('\n' :: acc) ('-' :: '-' :: '-' :: r3)
  | fuel + 1, acc, c :: rest => findCloseAux fuel (c :: acc) rest

/-- Find the earliest closing frontmatter delimiter `\n---\s*\n`;
returns the group text before it and the remainder after the final
newline of the delimiter. -/
def findClose (cs : Str) : Option (Str × Str) := findCloseAux cs.length [] cs

/-- Try candidate group starts in order (greediest opening delimiter
first, backtracking on failure). -/
def tryStarts (rest0 : Str) : List Nat → Option (Str × Str)
  | [] => none
  | i :: more =>
    match findClose (rest0.drop i) with
    | some (g, rem) => some (g, rem)
    | none => tryStarts rest0 more

/-- Model of `_FRONTMATTER_RE.match`: a leading `---` line, a non-greedy group,
and a closing `---` line; returns the group text and the body after the
block. -/
def matchFrontmatter : Str → Option (Str × Str)
  | '-' :: '-' :: '-' :: rest0 =>
    tryStarts rest0 ((nlStarts (rest0.takeWhile pySpace)).reverse)
  | _ => none

/-- Model of `MarkdownParser.get_body`: the text after any leading frontmatter
block. -/
def getBody (content : Str) : Str :=
  match matchFrontmatter content with
  | some (_, body) => body
  | none => content

/-- Outcome of `yaml.safe_load` on the frontmatter text: a key-value
map, some non-map value, or a parse error. -/
inductive YamlOut where
  | dict (entries : List (Str × Str))
  | nonDict
  | err

/-- Model of `MarkdownParser._extract_frontmatter`, parameterised by the YAML
parser: no leading block means empty frontmatter and unchanged body; a
parse failure or a non-map value means empty frontmatter with the text
after the block as body. -/
def extractFrontmatter (yaml : Str → YamlOut) (content : Str) :
    List (Str × Str) × Str :=
  match matchFrontmatter content with
  | none => ([], content)
  | some (raw, body) =>
    match yaml raw with
    | .dict d => (d, body)
    | _ => ([], body)

/-- C7: when the input starts with a delimiter-fenced frontmatter block
whose YAML parse fails or yields a non-map, `extractFrontmatter` returns
empty frontmatter and continues with the text after the block (and
`getBody` agrees on that body); without a leading fenced block the whole
text is the body with empty frontmatter. -/
theorem frontmatter_failure_fallback :
    (∀ (yaml : Str → YamlOut) (content raw body : Str),
      matchFrontmatter content = some (raw, body) →
      (yaml raw = .nonDict ∨ yaml raw = .err) →
      extractFrontmatter yaml content = ([], body) ∧ getBody content = body) ∧
    (∀ (yaml : Str → YamlOut) (content : Str),
      matchFrontmatter content = none →
      extractFrontmatter yaml content = ([], content) ∧
        getBody content = content) := by
  constructor
  · intro yaml content raw body hm hy
    rcases hy with hy | hy <;>
      exact ⟨by simp [extractFrontmatter, hm, hy], by simp [getBody, hm]⟩
  · intro yaml content hm
    exact ⟨by simp [extractFrontmatter, hm], by simp [getBody, hm]⟩

/-- Witness for C7: a frontmatter block with broken YAML is dropped and
the body after the block is kept. -/
theorem frontmatter_failure_fallback_witness :
    matchFrontmatter ("---\na: [\n---\nbody".data) =
      some ("a: [".data, "body".data) ∧
    extractFrontmatter (fun _ => YamlOut.err) ("---\na: [\n---\nbody".data) =
      ([], "body".data) :=
  ⟨by decide,
    (frontmatter_failure_fallback.1 (fun _ => YamlOut.err)
      ("---\na: [\n---\nbody".data) ("a: [".data) ("body".data)
      (by decide) (Or.inr rfl)).1⟩

theorem dedupeFirst_nodup (xs : List Str) :
    ∀ seen : List Str, (dedupeFirst seen xs).Nodup ∧
      ∀ x ∈ dedupeFirst seen xs, x ∉ seen := by
  induction xs with
  | nil => intro seen; simp [dedupeFirst]
  | cons x xs ih =>
    intro seen
    by_cases hx : x ∈ seen
    · simp only [dedupeFirst, if_pos hx]
      exact ih seen
    · simp only [dedupeFirst, if_neg hx]
      obtain ⟨hnd, hmem⟩ := ih (x :: seen)
      refine ⟨List.nodup_cons.2 ⟨?_, hnd⟩, ?_⟩
      · intro hxin
        exact (hmem x hxin) (List.mem_cons_self x seen)
      · intro y hy
        rcases List.mem_cons.1 hy with rfl | hy
        · exact hx
        · intro hyseen
          exact (hmem y hy) (List.mem_cons.2 (Or.inr hyseen))

/-- C6: wikilink extraction yields pairwise-distinct link texts, every
produced link carries the source path and the table resolution of its
link text (unresolvable texts get no target rather than an error), and
on a concrete document it takes the portion before `|` of each
non-code-span occurrence, collapsing duplicates in first-occurrence
order. -/
theorem wikilink_extraction :
    (∀ (m : PathTable) (src body : Str),
      ((extractWikilinks m src body).map WikiLink.linkText).Nodup) ∧
    (∀ (m : PathTable) (src body : Str), ∀ l ∈ extractWikilinks m src body,
      l.sourcePath = src ∧
        l.resolvedTargetPath = resolveLink m l.linkText) ∧
    extractWikilinks [("d".data, "D.md".data)] ("src.md".data)
        ("[[A]] x\n```\n[[B]]\n```\n[[A]] `[[C]]` [[D|alias]]".data) =
      [⟨"src.md".data, "A".data, none⟩,
        ⟨"src.md".data, "D".data, some "D.md".data⟩] := by
  refine ⟨?_, ?_, by decide⟩
  · intro m src body
    unfold extractWikilinks
    rw [List.map_map]
    have : (WikiLink.linkText ∘ fun t => WikiLink.mk src t (resolveLink m t)) =
        id := rfl
    rw [this, List.map_id]
    exact (dedupeFirst_nodup _ []).1
  · intro m src body l hl
    unfold extractWikilinks at hl
    obtain ⟨t, _, rfl⟩ := List.mem_map.1 hl
    exact ⟨rfl, rfl⟩

/-- Witness for C6 at the concrete document of the theorem. -/
theorem wikilink_extraction_witness :
    (WikiLink.mk "src.md".data "D".data (some "D.md".data)).sourcePath =
        "src.md".data ∧
    (WikiLink.mk "src.md".data "D".data
        (some "D.md".data)).resolvedTargetPath =
      resolveLink [("d".data, "D.md".data)] "D".data :=
  wikilink_extraction.2.1 [("d".data, "D.md".data)] ("src.md".data)
    ("[[A]] x\n```\n[[B]]\n```\n[[A]] `[[C]]` [[D|alias]]".data)
    ⟨"src.md".data, "D".data, some "D.md".data⟩ (by decide)

/-! ## Stable sorting (Python `sorted` / `Counter.most_common`) -/

/-- Stable insertion: place `x` before the first element `y` with
`le x y`. -/
def insertBy (le : α → α → Bool) (x : α) : List α → List α
  | [] => [x]
  | y :: t => if le x y then x :: y :: t else y :: insertBy le x t

/-- Stable sort by `le` (equivalent to Python's stable `sorted`). -/
def sortBy (le : α → α → Bool) : List α → List α
  | [] => []
  | x :: t => insertBy le x (sortBy le t)

theorem insertBy_perm (le : α → α → Bool) (x : α) (l : List α) :
    List.Perm (insertBy le x l) (x :: l) := by
  induction l with
  | nil => rfl
  | cons y t ih =>
    simp only [insertBy]
    split
    · rfl
    · exact ((ih.cons y).trans (List.Perm.swap x y t)).symm.symm

theorem sortBy_perm (le : α → α → Bool) (l : List α) :
    List.Perm (sortBy le l) l := by
  induction l with
  | nil => rfl
  | cons x t ih => exact (insertBy_perm le x (sortBy le t)).trans (ih.cons x)

theorem insertBy_pairwise (le : α → α → Bool)
    (htot : ∀ a b, le a b = false → le b a = true)
    (htrans : ∀ a b c, le a b = true → le b c = true → le a c = true)
    (x : α) (l : List α)
    (h : List.Pairwise (fun a b => le a b = true) l) :
    List.Pairwise (fun a b => le a b = true) (insertBy le x l) := by
  induction l with
  | nil => simp [insertBy]
  | cons y t ih =>
    rcases h with - | ⟨hy, ht⟩
    simp only [insertBy]
    split
    · rename_i hxy
      refine List.Pairwise.cons ?_ (List.Pairwise.cons hy ht)
      intro b hb
      rcases List.mem_cons.1 hb with rfl | hb
      · exact hxy
      · exact htrans x y b hxy (hy b hb)
    · rename_i hxy
      refine List.Pairwise.cons ?_ (ih ht)
      intro b hb
      have hmem := (insertBy_perm le x t).mem_iff.1 hb
      rcases List.mem_cons.1 hmem with heq | hb'
      · rw [heq]
        exact htot x y (by simpa using hxy)
      · exact hy b hb'

theorem sortBy_pairwise (le : α → α → Bool)
    (htot : ∀ a b, le a b = false → le b a = true)
    (htrans : ∀ a b c, le a b = true → le b c = true → le a c = true)
    (l : List α) :
    List.Pairwise (fun a b => le a b = true) (sortBy le l) := by
  induction l with
  | nil => simp [sortBy]
  | cons x t ih => exact insertBy_pairwise le htot htrans x _ ih

/-! ## Search service graph enrichment
(`backend/application/search_service.py`) -/

/-- One step of `collections.Counter` update: increment an existing
key's count or append the key with count 1 (insertion order kept). -/
def bump : List ((Str × Str) × Nat) → (Str × Str) → List ((Str × Str) × Nat)
  | [], k => [(k, 1)]
  | e :: t, k => if e.1 = k then (e.1, e.2 + 1) :: t else e :: bump t k

/-- Model of `Counter(pairs)`: counts per key, keys in first-occurrence order. -/
def buildCounter (ps : List (Str × Str)) : List ((Str × Str) × Nat) :=
  ps.foldl bump []

theorem bump_mem {c : List ((Str × Str) × Nat)} {p : Str × Str}
    {e : (Str × Str) × Nat} (h : e ∈ bump c p) : e.1 = p ∨ e ∈ c := by
  induction c with
  | nil =>
    simp only [bump, List.mem_singleton] at h
    subst h
    exact Or.inl rfl
  | cons f t ih =>
    simp only [bump] at h
    split at h
    · rename_i hf
      rcases List.mem_cons.1 h with rfl | hmem
      · exact Or.inl hf
      · exact Or.inr (List.mem_cons.2 (Or.inr hmem))
    · rcases List.mem_cons.1 h with rfl | hmem
      · exact Or.inr (List.mem_cons.2 (Or.inl rfl))
      · rcases ih hmem with h1 | h1
        · exact Or.inl h1
        · exact Or.inr (List.mem_cons.2 (Or.inr h1))

theorem bump_keys (c : List ((Str × Str) × Nat)) (p : Str × Str) :
    (bump c p).map Prod.fst =
      if p ∈ c.map Prod.fst then c.map Prod.fst
      else c.map Prod.fst ++ [p] := by
  induction c with
  | nil => simp [bump]
  | cons f t ih =>
    simp only [bump]
    split
    · rename_i hf
      subst hf
      simp
    · rename_i hf
      by_cases hp : p ∈ t.map Prod.fst <;>
        simp [List.map_cons, ih, hp, Ne.symm hf, hf]

theorem bump_values (c : List ((Str × Str) × Nat)) (p : Str × Str)
    (prev : (Str × Str) → Nat)
    (hnd : (c.map Prod.fst).Nodup)
    (hval : ∀ e ∈ c, e.2 = prev e.1)
    (hz : p ∉ c.map Prod.fst → prev p = 0) :
    ∀ e ∈ bump c p,
      e.2 = (if e.1 = p then prev e.1 + 1 else prev e.1) := by
  induction c with
  | nil =>
    intro e he
    simp only [bump, List.mem_singleton] at he
    subst he
    simp [hz (by simp)]
  | cons f t ih =>
    intro e he
    obtain ⟨hf1, hndt⟩ : f.1 ∉ t.map Prod.fst ∧ (t.map Prod.fst).Nodup :=
      List.nodup_cons.1 (by simpa using hnd)
    simp only [bump] at he
    split at he
    · rename_i hf
      rcases List.mem_cons.1 he with heq | hmem
      · have hfv : f.2 = prev f.1 := hval f (List.mem_cons_self f t)
        rw [heq]
        simp [hf, hfv]
      · have he1 : e.1 ∈ t.map Prod.fst := List.mem_map_of_mem Prod.fst hmem
        have hne : e.1 ≠ p := by
          intro hep
          apply hf1
          rw [hf, ← hep]
          exact he1
        rw [if_neg hne]
        exact hval e (List.mem_cons.2 (Or.inr hmem))
    · rename_i hf
      rcases List.mem_cons.1 he with heq | hmem
      · rw [heq, if_neg hf]
        exact hval f (List.mem_cons_self f t)
      · refine ih hndt (fun x hx => hval x (List.mem_cons.2 (Or.inr hx)))
          ?_ e hmem
        intro hpt
        apply hz
        intro hc
        rcases List.mem_cons.1 (by simpa using hc :
            p ∈ f.1 :: t.map Prod.fst) with hc1 | hc1
        · exact hf hc1.symm
        · exact hpt hc1

theorem foldl_bump_spec (ps : List (Str × Str)) :
    ∀ (c : List ((Str × Str) × Nat)) (prev : (Str × Str) → Nat),
      (c.map Prod.fst).Nodup →
      (∀ e ∈ c, e.2 = prev e.1) →
      (∀ k, k ∉ c.map Prod.fst → prev k = 0) →
      ((ps.foldl bump c).map Prod.fst).Nodup ∧
      (∀ e ∈ ps.foldl bump c, e.2 = prev e.1 + ps.count e.1) ∧
      (∀ e ∈ ps.foldl bump c, e.1 ∈ ps ∨ e ∈ c) := by
  induction ps with
  | nil =>
    intro c prev hnd hval _
    refine ⟨hnd, ?_, fun e he => Or.inr he⟩
    intro e he
    simpa using hval e he
  | cons p ps ih =>
    intro c prev hnd hval hz
    have hnd' : ((bump c p).map Prod.fst).Nodup := by
      rw [bump_keys]
      split
      · exact hnd
      · rename_i hp
        refine List.Nodup.append hnd (List.nodup_singleton p) ?_
        intro a ha hpa
        rw [List.mem_singleton] at hpa
        subst hpa
        exact hp ha
    have hval' : ∀ e ∈ bump c p,
        e.2 = (fun k => if k = p then prev k + 1 else prev k) e.1 :=
      bump_values c p prev hnd hval (hz p)
    have hz' : ∀ k, k ∉ (bump c p).map Prod.fst →
        (fun k => if k = p then prev k + 1 else prev k) k = 0 := by
      intro k hk
      rw [bump_keys] at hk
      by_cases hmem : p ∈ c.map Prod.fst
      · rw [if_pos hmem] at hk
        have hkp : k ≠ p := fun h => hk (h ▸ hmem)
        simp only [hkp, if_neg hkp]
        exact hz k hk
      · rw [if_neg hmem] at hk
        have hkp : k ≠ p := by
          intro h
          subst h
          exact hk (List.mem_append.2 (Or.inr (List.mem_singleton.2 rfl)))
        have hkc : k ∉ c.map Prod.fst :=
          fun h => hk (List.mem_append.2 (Or.inl h))
        simp only [hkp, if_neg hkp]
        exact hz k hkc
    obtain ⟨h1, h2, h3⟩ := ih (bump c p)
      (fun k => if k = p then prev k + 1 else prev k) hnd' hval' hz'
    refine ⟨h1, ?_, ?_⟩
    · intro e he
      have hcur := h2 e he
      rw [List.count_cons]
      by_cases hep : e.1 = p
      · simp only [if_pos hep] at hcur
        have hb : (p == e.1) = true := beq_iff_eq.2 hep.symm
        rw [hb]
        simp only [if_true, eq_self_iff_true]
        omega
      · simp only [if_neg hep] at hcur
        have hb : (p == e.1) = false := by
          simpa using fun h => hep h.symm
        rw [hb]
        simpa using hcur
    · intro e he
      rcases h3 e he with h | h
      · exact Or.inl (List.mem_cons.2 (Or.inr h))
      · rcases bump_mem h with h | h
        · exact Or.inl (List.mem_cons.2 (Or.inl h))
        · exact Or.inr h

theorem buildCounter_spec (ps : List (Str × Str)) :
    ((buildCounter ps).map Prod.fst).Nodup ∧
    (∀ e ∈ buildCounter ps, e.2 = ps.count e.1 ∧ e.1 ∈ ps) := by
  obtain ⟨h1, h2, h3⟩ := foldl_bump_spec ps [] (fun _ => 0)
    (by simp) (by simp) (by simp)
  refine ⟨h1, fun e he => ⟨?_, ?_⟩⟩
  · simpa using h2 e he
  · rcases h3 e he with h | h
    · exact h
    · simp at h

/-- Model of `RelatedNote` (the fields produced by graph enrichment). -/
structure RelatedNote where
  notePath : Str
  noteTitle : Str
  relationship : Str
  linkCount : Nat
deriving DecidableEq, Repr

/-- The derived title of a related note:
`related_path.rsplit("/", 1)[-1].removesuffix(".md")`. -/
def relatedTitle (p : Str) : Str :=
  let base := afterLastSlash p
  if (".md".data).isSuffixOf base then base.take (base.length - 3) else base

/-- Comparison used by `Counter.most_common()`: sort by count
descending, stable. -/
def countGe (a b : (Str × Str) × Nat) : Bool := decide (b.2 ≤ a.2)

/-- Model of `SearchService._enrich_with_related_notes`: flatten the link lists,
drop links whose related path is one of the result paths, count per
(related path, relationship) pair, sort by descending count, and build
`RelatedNote` values with derived titles. -/
def enrichRelated (resultPaths : List Str)
    (relations : List (Str × List (Str × Str))) : List RelatedNote :=
  let pairs := (relations.map (fun kv =>
    kv.2.filter (fun l => !(resultPaths.contains l.1)))).flatten
  (sortBy countGe (buildCounter pairs)).map
    (fun e => ⟨e.1.1, relatedTitle e.1.1, e.1.2, e.2⟩)

/-- C4 counterexample: on a relations map whose related path is
`dir/note.txt`, enrichment emits the title `note.txt`, which is not the
filename stem `note` — only a trailing `.md` suffix is ever stripped. -/
theorem graph_enrichment_title_counterexample :
    (enrichRelated ["a.md".data]
      [("a.md".data, [("dir/note.txt".data, "outgoing".data)])]).map
        RelatedNote.noteTitle = ["note.txt".data] ∧
    splitextRoot (afterLastSlash ("dir/note.txt".data)) = "note".data ∧
    ("note.txt".data : Str) ≠ "note".data :=
  ⟨by decide, by decide, by decide⟩

/-- C4 (amended): graph enrichment never emits a related note whose path
is one of the result paths, keys its aggregate by distinct
(path, relationship) pairs (outgoing and backlink counts never merge),
gives each entry the occurrence count of its pair among the kept link
triples, returns the aggregate sorted by descending count, and derives
each entry's title as the final path segment with a trailing `.md`
suffix removed (other extensions are kept). -/
theorem graph_enrichment (rp : List Str)
    (rel : List (Str × List (Str × Str))) :
    (∀ e ∈ enrichRelated rp rel, e.notePath ∉ rp) ∧
    ((enrichRelated rp rel).map
      (fun e => (e.notePath, e.relationship))).Nodup ∧
    (∀ e ∈ enrichRelated rp rel,
      e.linkCount = ((rel.map (fun kv =>
        kv.2.filter (fun l => !(rp.contains l.1)))).flatten).count
          (e.notePath, e.relationship)) ∧
    List.Pairwise (fun a b => b.linkCount ≤ a.linkCount)
      (enrichRelated rp rel) ∧
    (∀ e ∈ enrichRelated rp rel, e.noteTitle = relatedTitle e.notePath) := by
  have htot : ∀ a b : (Str × Str) × Nat,
      countGe a b = false → countGe b a = true := by
    intro a b h
    simp only [countGe, decide_eq_false_iff_not, not_le] at h
    simp only [countGe, decide_eq_true_eq]
    omega
  have htrans : ∀ a b c : (Str × Str) × Nat,
      countGe a b = true → countGe b c = true → countGe a c = true := by
    intro a b c h1 h2
    simp only [countGe, decide_eq_true_eq] at h1 h2 ⊢
    omega
  have hperm := sortBy_perm countGe (buildCounter ((rel.map (fun kv =>
    kv.2.filter (fun l => !(rp.contains l.1)))).flatten))
  obtain ⟨hknd, hspec⟩ := buildCounter_spec ((rel.map (fun kv =>
    kv.2.filter (fun l => !(rp.contains l.1)))).flatten)
  refine ⟨?_, ?_, ?_, ?_, ?_⟩
  · intro e he
    obtain ⟨x, hx, rfl⟩ := List.mem_map.1 he
    have hxc := hperm.mem_iff.1 hx
    have hx1 := (hspec x hxc).2
    obtain ⟨lsub, hlsub, hxin⟩ := List.mem_flatten.1 hx1
    obtain ⟨kv, _, rfl⟩ := List.mem_map.1 hlsub
    have hkeep := (List.mem_filter.1 hxin).2
    intro hmem
    simp only [Bool.not_eq_true'] at hkeep
    have helem : List.elem x.1.1 rp = true := List.elem_eq_true_of_mem hmem
    have : (true : Bool) = false := helem ▸ hkeep
    cases this
  · have hcomp : (enrichRelated rp rel).map
        (fun e => (e.notePath, e.relationship)) =
        (sortBy countGe (buildCounter ((rel.map (fun kv =>
          kv.2.filter (fun l => !(rp.contains l.1)))).flatten))).map
          Prod.fst := by
      show ((sortBy countGe _).map _).map _ = _
      rw [List.map_map]
      rfl
    rw [hcomp]
    exact ((hperm.map Prod.fst).nodup_iff).2 hknd
  · intro e he
    obtain ⟨x, hx, rfl⟩ := List.mem_map.1 he
    exact (hspec x (hperm.mem_iff.1 hx)).1
  · have hpw := sortBy_pairwise countGe htot htrans
      (buildCounter ((rel.map (fun kv =>
        kv.2.filter (fun l => !(rp.contains l.1)))).flatten))
    refine List.Pairwise.map _ ?_ hpw
    intro a b hab
    simpa [countGe] using hab
  · intro e he
    obtain ⟨x, hx, rfl⟩ := List.mem_map.1 he
    rfl

/-- Witness for C4's amended theorem at a concrete relations map. -/
theorem graph_enrichment_witness :
    (RelatedNote.mk "b.md".data "b".data "outgoing".data 2).notePath ∉
      ["a.md".data] ∧
    (RelatedNote.mk "b.md".data "b".data "outgoing".data 2).linkCount =
      (([("a.md".data, [("b.md".data, "outgoing".data),
        ("b.md".data, "backlink".data), ("b.md".data, "outgoing".data),
        ("a.md".data, "outgoing".data)])].map (fun kv =>
          kv.2.filter (fun l =>
            !((["a.md".data] : List Str).contains l.1)))).flatten).count
        ("b.md".data, "outgoing".data) ∧
    (RelatedNote.mk "b.md".data "b".data "outgoing".data 2).noteTitle =
      relatedTitle "b.md".data :=
  ⟨(graph_enrichment ["a.md".data]
      [("a.md".data, [("b.md".data, "outgoing".data),
        ("b.md".data, "backlink".data), ("b.md".data, "outgoing".data),
        ("a.md".data, "outgoing".data)])]).1 _ (by decide),
    (graph_enrichment ["a.md".data]
      [("a.md".data, [("b.md".data, "outgoing".data),
        ("b.md".data, "backlink".data), ("b.md".data, "outgoing".data),
        ("a.md".data, "outgoing".data)])]).2.2.1 _ (by decide),
    (graph_enrichment ["a.md".data]
      [("a.md".data, [("b.md".data, "outgoing".data),
        ("b.md".data, "backlink".data), ("b.md".data, "outgoing".data),
        ("a.md".data, "outgoing".data)])]).2.2.2.2 _ (by decide)⟩

/-! ## Index service (`backend/application/index_service.py`) -/

/-- A file on disk under the vault root: relative path and its content,
`none` when reading the file raises `OSError`
(`IndexService._read_file` returns `None`). -/
structure VaultFile where
  path : Str
  content : Option Str
deriving DecidableEq, Repr

/-- The storage and filesystem side effects `rebuild_index` performs. -/
inductive Op where
  | scanMap
  | ensureCollections
  | deleteChunks (path : Str)
  | deleteLinks (path : Str)
  | upsertChunks (path : Str) (count : Nat)
  | upsertLinks (path : Str) (count : Nat)
deriving DecidableEq, Repr

/-- Python string `<` (code-point lexicographic), used by `sorted`. -/
def lexLe : Str → Str → Bool
  | [], _ => true
  | _ :: _, [] => false
  | a :: as, b :: bs => if a = b then lexLe as bs else decide (a < b)

/-- Model of `IndexService._collect_md_files` before sorting: all files whose
name ends in a watched extension (`WATCH_EXTENSIONS = [".md"]`). -/
def collectMdFiles (vault : List VaultFile) : List Str :=
  (vault.filter (fun f => (".md".data).isSuffixOf f.path)).map VaultFile.path

/-- Model of `VaultFileMap.scan`: rebuild the stem table from the watched files
in walk order (later entries win on collision). -/
def scanTable (vault : List VaultFile) : PathTable :=
  (vault.filter (fun f => (".md".data).isSuffixOf f.path)).foldl
    (fun t f => insertKey t (fileKey f.path) f.path) []

/-- Read a file's content from the modelled disk
(`IndexService._read_file`: `none` on read failure). -/
def findFile (vault : List VaultFile) (p : Str) : Option Str :=
  (vault.find? (fun f => f.path == p)).bind VaultFile.content

/-- Model of `IndexService._index_file`: read, parse, chunk, embed and store one
file; returns the chunk count and the storage operations performed.  A
failed read or an empty chunk list contributes zero chunks and no
upserts. -/
def indexFile (m : PathTable) (vault : List VaultFile) (p : Str) :
    Nat × List Op :=
  match findFile vault p with
  | none => (0, [])
  | some content =>
    let body := getBody content
    let chunks := chunkNote p body
    if chunks.isEmpty then (0, [])
    else (chunks.length,
      [Op.upsertChunks p chunks.length,
        Op.upsertLinks p (extractWikilinks m p body).length])

/-- The per-file loop of `rebuild_index`.  `fault` injects an exception
while processing the file it counts down to (modelling a storage or
embedding error); the first component of the result records whether the
loop was aborted by that exception. -/
def runFiles (m : PathTable) (vault : List VaultFile) :
    List Str → Option Nat → Nat → Nat → List Op → Bool × Nat × Nat × List Op
  | [], _, n, c, ops => (false, n, c, ops)
  | f :: rest, fault, n, c, ops =>
    if fault = some 0 then (true, n, c, ops)
    else
      let r := indexFile m vault f
      runFiles m vault rest (fault.map Nat.pred) (n + 1) (c + r.1)
        (ops ++ [Op.deleteChunks f, Op.deleteLinks f] ++ r.2)

/-- Model of `IndexRebuildResponse` (counted fields). -/
structure RebuildResp where
  status : Str
  notesIndexed : Nat
  chunksCreated : Nat
deriving DecidableEq, Repr

/-- Model of `IndexService.rebuild_index`: reject immediately when the
`_rebuilding` flag is set (no scan, delete or upsert work, `None`
returned); otherwise scan the file map, ensure collections, process all
watched files sorted by relative path, and reset the flag on every exit
path — the `try/finally` guarantees this even when an injected exception
aborts the loop.  The result is the final flag value, the returned
response (`none` for "already running", `Except.error` when the run
raised), and the operations performed. -/
def rebuildIndex (rebuilding : Bool) (vault : List VaultFile)
    (fault : Option Nat) : Bool × Option (Except Unit RebuildResp) × List Op :=
  if rebuilding then (true, none, [])
  else
    match runFiles (scanTable vault) vault
        (sortBy lexLe (collectMdFiles vault)) fault 0 0
        [Op.scanMap, Op.ensureCollections] with
    | (true, _, _, ops) => (false, some (Except.error ()), ops)
    | (false, n, c, ops) =>
      (false, some (Except.ok ⟨"success".data, n, c⟩), ops)

/-- The notes-indexed count of a rebuild result, when it succeeded. -/
def notesOf (r : Bool × Option (Except Unit RebuildResp) × List Op) :
    Option Nat :=
  match r.2.1 with
  | some (Except.ok resp) => some resp.notesIndexed
  | _ => none

/-- The chunks-created count of a rebuild result, when it succeeded. -/
def chunksOf (r : Bool × Option (Except Unit RebuildResp) × List Op) :
    Option Nat :=
  match r.2.1 with
  | some (Except.ok resp) => some resp.chunksCreated
  | _ => none

/-- C3: a rebuild entered while the flag is already set returns the
`none` ("already running") signal immediately with no operations and an
unchanged flag; a rebuild that runs always ends with the flag cleared
and a response present — for every vault and every injected exception
point, success or failure. -/
theorem rebuild_flag_exclusion_and_release :
    (∀ (vault : List VaultFile) (fault : Option Nat),
      rebuildIndex true vault fault = (true, none, [])) ∧
    (∀ (vault : List VaultFile) (fault : Option Nat),
      (rebuildIndex false vault fault).1 = false ∧
        (rebuildIndex false vault fault).2.1.isSome = true) := by
  constructor
  · intro vault fault
    rfl
  · intro vault fault
    unfold rebuildIndex
    simp only [Bool.false_eq_true, if_false]
    rcases hr : runFiles (scanTable vault) vault
        (sortBy lexLe (collectMdFiles vault)) fault 0 0
        [Op.scanMap, Op.ensureCollections] with ⟨b, n, c, ops⟩
    cases b <;> simp

theorem runFiles_no_fault (m : PathTable) (vault : List VaultFile)
    (files : List Str) :
    ∀ (n c : Nat) (ops : List Op),
      (runFiles m vault files none n c ops).1 = false ∧
      (runFiles m vault files none n c ops).2.1 = n + files.length := by
  induction files with
  | nil => intro n c ops; simp [runFiles]
  | cons f rest ih =>
    intro n c ops
    have hnf : (none : Option Nat) ≠ some 0 := by simp
    simp only [runFiles, if_neg hnf,
      show Option.map Nat.pred none = (none : Option Nat) from rfl]
    obtain ⟨h1, h2⟩ := ih (n + 1) (c + (indexFile m vault f).1)
      (ops ++ [Op.deleteChunks f, Op.deleteLinks f] ++ (indexFile m vault f).2)
    refine ⟨h1, ?_⟩
    rw [h2]
    simp only [List.length_cons]
    omega

/-- C9: a fault-free rebuild reports `notesIndexed` equal to the number
of watched-extension files found under the vault root, counting files
whose read fails and files producing no chunks; concretely a vault with
one unreadable file and one one-chunk file reports two notes indexed and
one chunk created. -/
theorem rebuild_counts_every_file :
    (∀ vault : List VaultFile,
      notesOf (rebuildIndex false vault none) =
        some (vault.filter
          (fun f => (".md".data).isSuffixOf f.path)).length) ∧
    notesOf (rebuildIndex false
        [⟨"a.md".data, none⟩, ⟨"b.md".data, some "hello".data⟩] none) =
      some 2 ∧
    chunksOf (rebuildIndex false
        [⟨"a.md".data, none⟩, ⟨"b.md".data, some "hello".data⟩] none) =
      some 1 := by
  refine ⟨?_, by decide, by decide⟩
  intro vault
  obtain ⟨h1, h2⟩ := runFiles_no_fault (scanTable vault) vault
    (sortBy lexLe (collectMdFiles vault)) 0 0 [Op.scanMap, Op.ensureCollections]
  unfold rebuildIndex
  simp only [Bool.false_eq_true, if_false]
  rcases hr : runFiles (scanTable vault) vault
      (sortBy lexLe (collectMdFiles vault)) none 0 0
      [Op.scanMap, Op.ensureCollections] with ⟨b, n, c, ops⟩
  rw [hr] at h1 h2
  simp only at h1 h2
  subst h1
  simp only [notesOf]
  rw [h2, (sortBy_perm lexLe (collectMdFiles vault)).length_eq]
  simp [collectMdFiles]

end SecondBrain
